import Mathlib

/-
Shallow embedding of the rust-ising simulator (src/main.rs).

Modelling choices:
* `f64` values (coupling `j`, field `h`, inverse temperature `beta`, energies)
  are modelled as `ℚ`: every energy computed by the program is a sum and
  difference of `j` and `h`, so the arithmetic of interest is exact.
  The single transcendental operation, `(-1.0 * beta * denergy).exp()`, is
  modelled with `Real.exp` after casting the rational exponent to `ℝ`, and the
  uniform draw it is compared against is modelled as a real number.
* Rust `Vec` indexing panics out of bounds; we model `nodes[i]` with
  `List.getD` and a default node, and the theorems either assume or prove that
  every index the program uses is in bounds.
* The `rand` crate is modelled by explicit streams with a cursor:
  `BoolRng` for the generator passed by reference (used by `randomize` via
  `rng.gen::<bool>()`), and `F64Rng` for the thread-local source behind
  `rand::random::<f64>()`, which is what `step` actually consumes for its
  acceptance draws.
-/

namespace Ising

inductive Spin where
  | Up
  | Down
deriving DecidableEq

structure Node where
  state : Spin
  neighbor : ℕ × ℕ
deriving DecidableEq

def Node.new (sp : Spin) (n : ℕ) (e : ℕ) : Node := ⟨sp, (n, e)⟩

/-- The seeded generator handle passed around by reference (`&mut R`). -/
structure BoolRng where
  bits : ℕ → Bool
  pos : ℕ

def BoolRng.genBool (r : BoolRng) : Bool × BoolRng := (r.bits r.pos, ⟨r.bits, r.pos + 1⟩)

def Node.randomize (node : Node) (rng : BoolRng) : Node × BoolRng :=
  let br := rng.genBool
  (if br.1 then ⟨Spin.Up, node.neighbor⟩ else ⟨Spin.Down, node.neighbor⟩, br.2)

structure Field where
  width : ℕ
  height : ℕ
  beta : ℚ
  nodes : List Node
deriving DecidableEq

def Field.getNode (f : Field) (i : ℕ) : Node := f.nodes.getD i (Node.new Spin.Up 0 0)

def Field.create (width height : ℕ) (beta : ℚ) : Field :=
  { width := width, height := height, beta := beta,
    nodes := (List.range height).flatMap (fun h =>
      (List.range width).map (fun w =>
        Node.new Spin.Up
          (width * (if h = 0 then height - 1 else h - 1) + w)
          (width * h + (if w = 0 then width - 1 else w - 1)))) }

def Field.setNode (f : Field) (i : ℕ) (n : Node) : Field := { f with nodes := f.nodes.set i n }

def Field.randomize (f : Field) (rng : BoolRng) : Field × BoolRng :=
  (List.range f.nodes.length).foldl
    (fun acc i =>
      let nr := (acc.1.getNode i).randomize acc.2
      (acc.1.setNode i nr.1, nr.2)) (f, rng)

structure Hamiltonian where
  j : ℚ
  h : ℚ
deriving DecidableEq

def Hamiltonian.calc_energy_node (self : Hamiltonian) (idx : ℕ) (field : Field) : ℚ :=
  let node := field.getNode idx
  let energy : ℚ := match node.state with
    | Spin.Up => -self.h
    | Spin.Down => self.h
  let energy := if node.state = (field.getNode node.neighbor.1).state then energy - self.j else energy
  let energy := if node.state = (field.getNode node.neighbor.2).state then energy - self.j else energy
  energy

def Hamiltonian.calc_energy (self : Hamiltonian) (field : Field) : ℚ :=
  (List.range field.nodes.length).foldl (fun energy i => energy + self.calc_energy_node i field) 0

def Hamiltonian.calc_energy_diff_node (self : Hamiltonian) (idx : ℕ) (field : Field) : ℚ :=
  let node := field.getNode idx
  let energy_prev : ℚ := match node.state with
    | Spin.Up => -self.h
    | Spin.Down => self.h
  let energy_next : ℚ := -energy_prev
  let pn1 := if node.state = (field.getNode node.neighbor.1).state
    then (energy_prev - self.j, energy_next) else (energy_prev, energy_next - self.j)
  let pn2 := if node.state = (field.getNode node.neighbor.2).state
    then (pn1.1 - self.j, pn1.2) else (pn1.1, pn1.2 - self.j)
  pn2.1 - pn2.2

/-- The in-place mutation `field.nodes[i].state = match ... { Up => Down, Down => Up }`. -/
def Field.flipNode (f : Field) (i : ℕ) : Field :=
  let node := f.getNode i
  f.setNode i ⟨match node.state with | Spin.Up => Spin.Down | Spin.Down => Spin.Up, node.neighbor⟩

/-- The thread-local source behind `rand::random::<f64>()`. -/
structure F64Rng where
  vals : ℕ → ℝ
  pos : ℕ

def F64Rng.gen (r : F64Rng) : ℝ × F64Rng := (r.vals r.pos, ⟨r.vals, r.pos + 1⟩)

open Classical in
/-- Loop body of `step` at site `i`: `denergy <= 0.0` short-circuits the `||`,
so the acceptance draw is consumed only when `denergy > 0`. -/
noncomputable def stepNode (ham : Hamiltonian) (acc : Field × F64Rng) (i : ℕ) : Field × F64Rng :=
  let denergy := ham.calc_energy_diff_node i acc.1
  if denergy ≤ 0 then (acc.1.flipNode i, acc.2)
  else
    let ug := acc.2.gen
    if ug.1 > Real.exp (((-1 : ℚ) * acc.1.beta * denergy : ℚ) : ℝ) then (acc.1.flipNode i, ug.2)
    else (acc.1, ug.2)

/-- `step<R: Rng>(field, hamiltonian, rng)`: the `rng` argument appears in the
signature but the body never reads it; the only randomness consumed is the
thread-local `rand::random::<f64>()` stream, modelled by `glob`. -/
noncomputable def step (field : Field) (ham : Hamiltonian) (rng : BoolRng) (glob : F64Rng) :
    Field × BoolRng × F64Rng :=
  let fg := (List.range field.nodes.length).foldl (stepNode ham) (field, glob)
  (fg.1, rng, fg.2)

/-! ## Helper lemmas shared by the claims -/

lemma create_nodes_length (wd ht : ℕ) (β : ℚ) : (Field.create wd ht β).nodes.length = wd * ht := by
  simp only [Field.create]
  rw [List.length_flatMap]
  simp [Function.comp_def, Nat.mul_comm]

lemma create_state_eq_up (wd ht : ℕ) (β : ℚ) (i : ℕ) :
    ((Field.create wd ht β).getNode i).state = Spin.Up := by
  unfold Field.getNode
  rcases Nat.lt_or_ge i (Field.create wd ht β).nodes.length with hi | hi
  · have hmem : (Field.create wd ht β).nodes.getD i (Node.new Spin.Up 0 0) ∈
        (Field.create wd ht β).nodes := by
      rw [List.getD_eq_getElem?_getD, List.getElem?_eq_getElem hi]
      exact List.getElem_mem hi
    simp only [Field.create] at hmem ⊢
    rw [List.mem_flatMap] at hmem
    obtain ⟨a, -, hmem⟩ := hmem
    rw [List.mem_map] at hmem
    obtain ⟨b, -, hb⟩ := hmem
    rw [← hb]
    rfl
  · rw [List.getD_eq_default _ _ hi]
    rfl

lemma foldl_add_sum (f : ℕ → ℚ) (n : ℕ) : ∀ a : ℚ,
    (List.range n).foldl (fun e i => e + f i) a = a + ∑ i ∈ Finset.range n, f i := by
  induction n with
  | zero => simp
  | succ n ih =>
    intro a
    rw [List.range_succ, List.foldl_append, ih, Finset.sum_range_succ]
    simp [add_assoc]

lemma calc_energy_eq_sum (ham : Hamiltonian) (field : Field) :
    ham.calc_energy field = ∑ i ∈ Finset.range field.nodes.length, ham.calc_energy_node i field := by
  unfold Hamiltonian.calc_energy
  rw [foldl_add_sum]
  simp

lemma calc_energy_node_create_allUp (wd ht : ℕ) (β j : ℚ) (i : ℕ) :
    Hamiltonian.calc_energy_node ⟨j, 0⟩ i (Field.create wd ht β) = -(2 * j) := by
  have h0 := create_state_eq_up wd ht β i
  have h1 := create_state_eq_up wd ht β (((Field.create wd ht β).getNode i).neighbor.1)
  have h2 := create_state_eq_up wd ht β (((Field.create wd ht β).getNode i).neighbor.2)
  simp only [Hamiltonian.calc_energy_node, h0, h1, h2]
  norm_num
  ring

lemma calc_energy_create_allUp (wd ht : ℕ) (β j : ℚ) :
    Hamiltonian.calc_energy ⟨j, 0⟩ (Field.create wd ht β) = -(2 * j * ((wd : ℚ) * (ht : ℚ))) := by
  rw [calc_energy_eq_sum, create_nodes_length]
  rw [Finset.sum_congr rfl (fun i _ => calc_energy_node_create_allUp wd ht β j i)]
  rw [Finset.sum_const, Finset.card_range, nsmul_eq_mul]
  push_cast
  ring

lemma up_ne_down : Spin.Up ≠ Spin.Down := by decide

lemma down_ne_up : Spin.Down ≠ Spin.Up := by decide

lemma flipNode_getNode_ne (f : Field) (i k : ℕ) (h : i ≠ k) :
    (f.flipNode i).getNode k = f.getNode k := by
  simp [Field.flipNode, Field.setNode, Field.getNode, List.getD_eq_getElem?_getD,
    List.getElem?_set_ne h]

lemma flipNode_getNode_self (f : Field) (i : ℕ) (hi : i < f.nodes.length) :
    (f.flipNode i).getNode i =
      ⟨match (f.getNode i).state with | Spin.Up => Spin.Down | Spin.Down => Spin.Up,
        (f.getNode i).neighbor⟩ := by
  simp [Field.flipNode, Field.setNode, Field.getNode, List.getD_eq_getElem?_getD,
    List.getElem?_set_self hi]

/-! ## C6 -/

/-- C6: `siteEnergy` (`calc_energy_node`) returns the field term (`-H` for an Up
site, `+H` for a Down site) minus `J` for each of the site's two stored
neighbors whose spin equals the site's own spin, and `totalEnergy`
(`calc_energy`) is the sum of the per-site energies over every site index. -/
theorem calc_energy_node_and_total_spec (ham : Hamiltonian) (field : Field) (idx : ℕ)
    (hidx : idx < field.nodes.length) :
    ham.calc_energy_node idx field =
      (if (field.getNode idx).state = Spin.Up then -ham.h else ham.h)
        - ham.j *
          ((if (field.getNode idx).state = (field.getNode (field.getNode idx).neighbor.1).state
              then (1 : ℚ) else 0)
            + (if (field.getNode idx).state = (field.getNode (field.getNode idx).neighbor.2).state
              then (1 : ℚ) else 0))
    ∧ ham.calc_energy field = ∑ i ∈ Finset.range field.nodes.length, ham.calc_energy_node i field := by
  refine ⟨?_, calc_energy_eq_sum ham field⟩
  cases hs : (field.getNode idx).state <;>
    simp only [Hamiltonian.calc_energy_node, hs] <;> split_ifs <;> simp_all <;> ring

theorem calc_energy_node_and_total_spec_witness :
    0 < (Field.create 2 2 1).nodes.length ∧
    (Hamiltonian.calc_energy_node ⟨1, 0⟩ 0 (Field.create 2 2 1) =
      (if ((Field.create 2 2 1).getNode 0).state = Spin.Up then -(0 : ℚ) else 0)
        - 1 *
          ((if ((Field.create 2 2 1).getNode 0).state =
              ((Field.create 2 2 1).getNode ((Field.create 2 2 1).getNode 0).neighbor.1).state
              then (1 : ℚ) else 0)
            + (if ((Field.create 2 2 1).getNode 0).state =
              ((Field.create 2 2 1).getNode ((Field.create 2 2 1).getNode 0).neighbor.2).state
              then (1 : ℚ) else 0))
      ∧ Hamiltonian.calc_energy ⟨1, 0⟩ (Field.create 2 2 1) =
        ∑ i ∈ Finset.range (Field.create 2 2 1).nodes.length,
          Hamiltonian.calc_energy_node ⟨1, 0⟩ i (Field.create 2 2 1)) :=
  ⟨by decide, calc_energy_node_and_total_spec ⟨1, 0⟩ (Field.create 2 2 1) 0 (by decide)⟩

/-! ## C10 -/

/-- C10: since every site stores exactly two neighbor indices, the incremental
flip delta satisfies `calc_energy_diff_node = 2 * calc_energy_node + 2 * J`
(the mismatched-neighbor count is two minus the matched count). -/
theorem diff_eq_two_siteEnergy_plus_twoJ (ham : Hamiltonian) (field : Field) (idx : ℕ)
    (hidx : idx < field.nodes.length) :
    ham.calc_energy_diff_node idx field = 2 * ham.calc_energy_node idx field + 2 * ham.j := by
  cases hs : (field.getNode idx).state <;>
    simp only [Hamiltonian.calc_energy_diff_node, Hamiltonian.calc_energy_node, hs] <;>
    split_ifs <;> simp_all <;> ring

theorem diff_eq_two_siteEnergy_plus_twoJ_witness :
    0 < (Field.create 2 2 1).nodes.length ∧
    Hamiltonian.calc_energy_diff_node ⟨1, 0⟩ 0 (Field.create 2 2 1) =
      2 * Hamiltonian.calc_energy_node ⟨1, 0⟩ 0 (Field.create 2 2 1) + 2 * (1 : ℚ) :=
  ⟨by decide, diff_eq_two_siteEnergy_plus_twoJ ⟨1, 0⟩ (Field.create 2 2 1) 0 (by decide)⟩

/-! ## C3 -/

/-- C3 counterexample: on the 2x2 all-Up lattice with `J = 1`, `H = 0`, the
total energy is `-8` (each of the four sites stores two satisfied bonds), not
the claimed `-J * (w*h) = -4`. -/
theorem calc_energy_2x2_counterexample :
    Hamiltonian.calc_energy ⟨1, 0⟩ (Field.create 2 2 1) ≠ -4 := by
  rw [calc_energy_create_allUp 2 2 1 1]
  norm_num

/-- C3 amended: on the all-Up lattice `create w h β` with `H = 0`, `totalEnergy`
equals `-J * (2*w*h)`: each of the `2*w*h` stored bonds contributes `-J`
(every site stores two bonds). In particular the 2x2 lattice with `J = 1`
gives `-8`. -/
theorem calc_energy_allUp_amended (wd ht : ℕ) (β j : ℚ) (hw : 1 ≤ wd) (hh : 1 ≤ ht) :
    Hamiltonian.calc_energy ⟨j, 0⟩ (Field.create wd ht β) = -(2 * j * ((wd : ℚ) * (ht : ℚ))) :=
  calc_energy_create_allUp wd ht β j

theorem calc_energy_allUp_amended_witness :
    (1 ≤ 2 ∧ Hamiltonian.calc_energy ⟨1, 0⟩ (Field.create 2 2 1) = -8) :=
  ⟨by decide, by rw [calc_energy_allUp_amended 2 2 1 1 (by decide) (by decide)]; norm_num⟩

/-! ## C4 -/

lemma stepNode_of_nonpos (ham : Hamiltonian) (field : Field) (glob : F64Rng) (i : ℕ)
    (h : ham.calc_energy_diff_node i field ≤ 0) :
    stepNode ham (field, glob) i = (field.flipNode i, glob) := by
  simp only [stepNode]
  rw [if_pos h]

lemma stepNode_of_pos_accept (ham : Hamiltonian) (field : Field) (glob : F64Rng) (i : ℕ)
    (h : 0 < ham.calc_energy_diff_node i field)
    (hu : glob.vals glob.pos >
      Real.exp (((-1 : ℚ) * field.beta * ham.calc_energy_diff_node i field : ℚ) : ℝ)) :
    stepNode ham (field, glob) i = (field.flipNode i, ⟨glob.vals, glob.pos + 1⟩) := by
  simp only [stepNode, F64Rng.gen]
  rw [if_neg (not_le.mpr h), if_pos hu]

lemma stepNode_of_pos_reject (ham : Hamiltonian) (field : Field) (glob : F64Rng) (i : ℕ)
    (h : 0 < ham.calc_energy_diff_node i field)
    (hu : ¬ glob.vals glob.pos >
      Real.exp (((-1 : ℚ) * field.beta * ham.calc_energy_diff_node i field : ℚ) : ℝ)) :
    stepNode ham (field, glob) i = (field, ⟨glob.vals, glob.pos + 1⟩) := by
  simp only [stepNode, F64Rng.gen]
  rw [if_neg (not_le.mpr h), if_neg hu]

/-- C4: `calc_energy_diff_node` returns `energyIfCurrent - energyIfFlipped`,
where `energyIfCurrent` is the field term of the current spin minus `J` per
stored neighbor whose spin currently matches, and `energyIfFlipped` is the
negated field term minus `J` per stored neighbor whose spin currently does not
match. It reads the lattice purely (the embedding returns only a value), and a
result `≤ 0` is exactly the condition under which the sweep flips the site
unconditionally, without consuming a random draw; a positive result always
consumes one draw. -/
theorem calc_energy_diff_node_spec (ham : Hamiltonian) (field : Field) (idx : ℕ)
    (hidx : idx < field.nodes.length) :
    ham.calc_energy_diff_node idx field =
      ((if (field.getNode idx).state = Spin.Up then -ham.h else ham.h)
          - ham.j *
            ((if (field.getNode idx).state = (field.getNode (field.getNode idx).neighbor.1).state
                then (1 : ℚ) else 0)
              + (if (field.getNode idx).state = (field.getNode (field.getNode idx).neighbor.2).state
                then (1 : ℚ) else 0)))
        - (-(if (field.getNode idx).state = Spin.Up then -ham.h else ham.h)
          - ham.j *
            ((if (field.getNode idx).state = (field.getNode (field.getNode idx).neighbor.1).state
                then (0 : ℚ) else 1)
              + (if (field.getNode idx).state = (field.getNode (field.getNode idx).neighbor.2).state
                then (0 : ℚ) else 1)))
    ∧ (∀ glob : F64Rng, ham.calc_energy_diff_node idx field ≤ 0 →
        stepNode ham (field, glob) idx = (field.flipNode idx, glob))
    ∧ (∀ glob : F64Rng, 0 < ham.calc_energy_diff_node idx field →
        (stepNode ham (field, glob) idx).2 = ⟨glob.vals, glob.pos + 1⟩) := by
  refine ⟨?_, fun glob h => stepNode_of_nonpos ham field glob idx h, fun glob h => ?_⟩
  · cases hs : (field.getNode idx).state <;>
      simp only [Hamiltonian.calc_energy_diff_node, hs] <;> split_ifs <;> simp_all <;> ring
  · simp only [stepNode, F64Rng.gen]
    rw [if_neg (not_le.mpr h)]
    split <;> rfl

theorem calc_energy_diff_node_spec_witness :
    0 < (Field.create 2 2 1).nodes.length ∧
    (Hamiltonian.calc_energy_diff_node ⟨1, 0⟩ 0 (Field.create 2 2 1) =
      ((if ((Field.create 2 2 1).getNode 0).state = Spin.Up then -(0 : ℚ) else 0)
          - 1 *
            ((if ((Field.create 2 2 1).getNode 0).state =
                ((Field.create 2 2 1).getNode ((Field.create 2 2 1).getNode 0).neighbor.1).state
                then (1 : ℚ) else 0)
              + (if ((Field.create 2 2 1).getNode 0).state =
                ((Field.create 2 2 1).getNode ((Field.create 2 2 1).getNode 0).neighbor.2).state
                then (1 : ℚ) else 0)))
        - (-(if ((Field.create 2 2 1).getNode 0).state = Spin.Up then -(0 : ℚ) else 0)
          - 1 *
            ((if ((Field.create 2 2 1).getNode 0).state =
                ((Field.create 2 2 1).getNode ((Field.create 2 2 1).getNode 0).neighbor.1).state
                then (0 : ℚ) else 1)
              + (if ((Field.create 2 2 1).getNode 0).state =
                ((Field.create 2 2 1).getNode ((Field.create 2 2 1).getNode 0).neighbor.2).state
                then (0 : ℚ) else 1)))
      ∧ (∀ glob : F64Rng, Hamiltonian.calc_energy_diff_node ⟨1, 0⟩ 0 (Field.create 2 2 1) ≤ 0 →
          stepNode ⟨1, 0⟩ (Field.create 2 2 1, glob) 0 = ((Field.create 2 2 1).flipNode 0, glob))
      ∧ (∀ glob : F64Rng, 0 < Hamiltonian.calc_energy_diff_node ⟨1, 0⟩ 0 (Field.create 2 2 1) →
          (stepNode ⟨1, 0⟩ (Field.create 2 2 1, glob) 0).2 = ⟨glob.vals, glob.pos + 1⟩)) :=
  ⟨by decide, calc_energy_diff_node_spec ⟨1, 0⟩ (Field.create 2 2 1) 0 (by decide)⟩

/-! ## C5 -/

/-- Spec-side reference value for the refinement claim C5, following the spec's
words: flip site `idx`, recompute the site energy, revert the flip (the revert
is implicit because the embedding is pure), and take
`siteEnergyIfFlipped - siteEnergyCurrent` in that order. -/
def bruteForceFlipDelta (ham : Hamiltonian) (idx : ℕ) (field : Field) : ℚ :=
  ham.calc_energy_node idx (field.flipNode idx) - ham.calc_energy_node idx field

/-- C5 counterexample: at site 0 of the 2x2 all-Up lattice with `J = 1`,
`H = 0`, the incremental method gives `-2` while the brute-force
`siteEnergyIfFlipped - siteEnergyCurrent` gives `+2`: the claimed equality
has the subtraction in the wrong order. -/
theorem bruteforce_sign_counterexample :
    Hamiltonian.calc_energy_diff_node ⟨1, 0⟩ 0 (Field.create 2 2 1) ≠
      bruteForceFlipDelta ⟨1, 0⟩ 0 (Field.create 2 2 1) := by
  have g0 : (Field.create 2 2 1).getNode 0 = Node.new Spin.Up 2 1 := by decide
  have g1 : (Field.create 2 2 1).getNode 1 = Node.new Spin.Up 3 0 := by decide
  have g2 : (Field.create 2 2 1).getNode 2 = Node.new Spin.Up 0 3 := by decide
  have f0 : ((Field.create 2 2 1).flipNode 0).getNode 0 = ⟨Spin.Down, (2, 1)⟩ := by decide
  have f1 : ((Field.create 2 2 1).flipNode 0).getNode 1 = Node.new Spin.Up 3 0 := by decide
  have f2 : ((Field.create 2 2 1).flipNode 0).getNode 2 = Node.new Spin.Up 0 3 := by decide
  simp only [bruteForceFlipDelta, Hamiltonian.calc_energy_diff_node, Hamiltonian.calc_energy_node,
    g0, g1, g2, f0, f1, f2, Node.new]
  simp [up_ne_down, down_ne_up]
  norm_num

/-- C5 amended: for every site whose two stored neighbor indices differ from
the site itself (in particular every site when `w ≥ 2` and `h ≥ 2`), the
incremental `calc_energy_diff_node` equals
`siteEnergyCurrent - siteEnergyIfFlipped`, the NEGATION of the brute-force
mutate-resum-revert value claimed by the spec. (With a degenerate self-bond
the two methods differ by more than the sign: flipping the site also flips its
self-neighbor, which the incremental method does not account for.) -/
theorem calc_energy_diff_node_vs_bruteforce (ham : Hamiltonian) (field : Field) (idx : ℕ)
    (hidx : idx < field.nodes.length)
    (h1 : (field.getNode idx).neighbor.1 ≠ idx) (h2 : (field.getNode idx).neighbor.2 ≠ idx) :
    ham.calc_energy_diff_node idx field = -(bruteForceFlipDelta ham idx field) := by
  have hn1 := flipNode_getNode_ne field idx (field.getNode idx).neighbor.1 (Ne.symm h1)
  have hn2 := flipNode_getNode_ne field idx (field.getNode idx).neighbor.2 (Ne.symm h2)
  have hself := flipNode_getNode_self field idx hidx
  cases hs : (field.getNode idx).state <;>
    cases ht1 : (field.getNode (field.getNode idx).neighbor.1).state <;>
    cases ht2 : (field.getNode (field.getNode idx).neighbor.2).state <;>
    simp only [bruteForceFlipDelta, Hamiltonian.calc_energy_diff_node,
      Hamiltonian.calc_energy_node, hself, hn1, hn2, hs, ht1, ht2] <;>
    simp [up_ne_down, down_ne_up] <;> ring

theorem calc_energy_diff_node_vs_bruteforce_witness :
    0 < (Field.create 2 2 1).nodes.length ∧
    ((Field.create 2 2 1).getNode 0).neighbor.1 ≠ 0 ∧
    ((Field.create 2 2 1).getNode 0).neighbor.2 ≠ 0 ∧
    Hamiltonian.calc_energy_diff_node ⟨1, 0⟩ 0 (Field.create 2 2 1) =
      -(bruteForceFlipDelta ⟨1, 0⟩ 0 (Field.create 2 2 1)) :=
  ⟨by decide, by decide, by decide,
    calc_energy_diff_node_vs_bruteforce ⟨1, 0⟩ (Field.create 2 2 1) 0
      (by decide) (by decide) (by decide)⟩

/-! ## C7 -/

lemma flatMap_range_map_length (n wd : ℕ) (g : ℕ → ℕ → Node) :
    ((List.range n).flatMap (fun a => (List.range wd).map (g a))).length = n * wd := by
  rw [List.length_flatMap]
  simp [Function.comp_def]

lemma create_getD (wd : ℕ) (g : ℕ → ℕ → Node) (d : Node) :
    ∀ n r c : ℕ, r < n → c < wd →
      (((List.range n).flatMap (fun a => (List.range wd).map (g a))).getD (r * wd + c) d) = g r c := by
  intro n
  induction n with
  | zero => intro r c hr; omega
  | succ n ih =>
    intro r c hr hc
    rw [List.range_succ, List.flatMap_append]
    rcases Nat.lt_or_ge r n with hrn | hrn
    · have hlt : r * wd + c < n * wd := by
        have h1 : r * wd + wd ≤ n * wd := by
          have : (r + 1) * wd ≤ n * wd := Nat.mul_le_mul_right wd hrn
          calc r * wd + wd = (r + 1) * wd := by ring
            _ ≤ n * wd := this
        omega
      rw [List.getD_eq_getElem?_getD, List.getElem?_append, flatMap_range_map_length, if_pos hlt,
        ← List.getD_eq_getElem?_getD]
      exact ih r c hrn hc
    · have hr0 : r = n := by omega
      subst hr0
      rw [List.getD_eq_getElem?_getD,
        List.getElem?_append_right (by rw [flatMap_range_map_length]; omega),
        flatMap_range_map_length]
      have hsub : r * wd + c - r * wd = c := by omega
      rw [hsub]
      simp [List.getElem?_map, List.getElem?_range hc]

lemma create_getNode (wd ht : ℕ) (β : ℚ) (r c : ℕ) (hr : r < ht) (hc : c < wd) :
    (Field.create wd ht β).getNode (r * wd + c) =
      Node.new Spin.Up
        (wd * (if r = 0 then ht - 1 else r - 1) + c)
        (wd * r + (if c = 0 then wd - 1 else c - 1)) := by
  unfold Field.getNode
  simp only [Field.create]
  exact create_getD wd _ _ ht r c hr hc

lemma prev_eq_mod (r n : ℕ) (h1 : 1 ≤ n) (hr : r < n) :
    (if r = 0 then n - 1 else r - 1) = (r + n - 1) % n := by
  rcases r with _ | r
  · rw [if_pos rfl]
    have : 0 + n - 1 = n - 1 := by omega
    rw [this, Nat.mod_eq_of_lt (by omega)]
  · rw [if_neg (by omega)]
    have : r + 1 + n - 1 = r + n := by omega
    rw [this, Nat.add_mod_right, Nat.mod_eq_of_lt (by omega)]
    omega

/-- C7: for `w, h ≥ 1`, `create w h β` yields `w*h` sites; the site stored at
row-major index `r*w + c` is initialized to Up and carries exactly the two
neighbor indices `w * ((r + h - 1) % h) + c` (north, toroidal wrap) and
`w * r + ((c + w - 1) % w)` (west, toroidal wrap), both of which lie in
`[0, w*h)`. -/
theorem create_layout_spec (wd ht : ℕ) (β : ℚ) (hw : 1 ≤ wd) (hh : 1 ≤ ht) :
    (Field.create wd ht β).nodes.length = wd * ht ∧
    ∀ r c : ℕ, r < ht → c < wd →
      (Field.create wd ht β).getNode (r * wd + c) =
        Node.new Spin.Up (wd * ((r + ht - 1) % ht) + c) (wd * r + ((c + wd - 1) % wd)) ∧
      wd * ((r + ht - 1) % ht) + c < wd * ht ∧
      wd * r + ((c + wd - 1) % wd) < wd * ht := by
  refine ⟨create_nodes_length wd ht β, fun r c hr hc => ⟨?_, ?_, ?_⟩⟩
  · rw [create_getNode wd ht β r c hr hc, prev_eq_mod r ht hh hr, prev_eq_mod c wd hw hc]
  · have hm : (r + ht - 1) % ht < ht := Nat.mod_lt _ (by omega)
    have e1 : wd * ((r + ht - 1) % ht) + wd ≤ wd * ht := by
      have h2 : wd * ((r + ht - 1) % ht + 1) ≤ wd * ht := Nat.mul_le_mul_left wd (by omega)
      calc wd * ((r + ht - 1) % ht) + wd = wd * ((r + ht - 1) % ht + 1) := by ring
        _ ≤ wd * ht := h2
    omega
  · have hm : (c + wd - 1) % wd < wd := Nat.mod_lt _ (by omega)
    have e1 : wd * r + wd ≤ wd * ht := by
      have h2 : wd * (r + 1) ≤ wd * ht := Nat.mul_le_mul_left wd (by omega)
      calc wd * r + wd = wd * (r + 1) := by ring
        _ ≤ wd * ht := h2
    omega

theorem create_layout_spec_witness :
    1 ≤ 2 ∧
    ((Field.create 2 2 1).nodes.length = 2 * 2 ∧
      ∀ r c : ℕ, r < 2 → c < 2 →
        (Field.create 2 2 1).getNode (r * 2 + c) =
          Node.new Spin.Up (2 * ((r + 2 - 1) % 2) + c) (2 * r + ((c + 2 - 1) % 2)) ∧
        2 * ((r + 2 - 1) % 2) + c < 2 * 2 ∧
        2 * r + ((c + 2 - 1) % 2) < 2 * 2) :=
  ⟨by decide, create_layout_spec 2 2 1 (by decide) (by decide)⟩

/-! ## C8 -/

/-- C8: for `w, h ≥ 1` and every site index `i`, both stored neighbor indices
are valid indices into the node list, so every site and neighbor lookup made
by `calc_energy_node`, `calc_energy`, `calc_energy_diff_node` and `step`
(which only ever index a loop counter below the length, or a stored neighbor)
stays in bounds; the operations of the embedding are total, so nothing
crashes. In the degenerate dimensions the toroidal wrap yields a self-bond:
with `h = 1` the north neighbor is the site itself, and with `w = 1` the west
neighbor is the site itself. -/
theorem create_boundary_safe (wd ht : ℕ) (β : ℚ) (hw : 1 ≤ wd) (hh : 1 ≤ ht) (i : ℕ)
    (hi : i < (Field.create wd ht β).nodes.length) :
    ((Field.create wd ht β).getNode i).neighbor.1 < (Field.create wd ht β).nodes.length ∧
    ((Field.create wd ht β).getNode i).neighbor.2 < (Field.create wd ht β).nodes.length ∧
    (ht = 1 → ((Field.create wd ht β).getNode i).neighbor.1 = i) ∧
    (wd = 1 → ((Field.create wd ht β).getNode i).neighbor.2 = i) := by
  rw [create_nodes_length] at hi ⊢
  have hdec : ∃ r c, r < ht ∧ c < wd ∧ i = r * wd + c := by
    refine ⟨i / wd, i % wd, ?_, Nat.mod_lt _ (by omega), ?_⟩
    · rcases Nat.lt_or_ge (i / wd) ht with h | h
      · exact h
      · exfalso
        have h1 : ht * wd ≤ (i / wd) * wd := Nat.mul_le_mul_right wd h
        have hdm := Nat.div_add_mod i wd
        have h2 : wd * ht = ht * wd := Nat.mul_comm wd ht
        have h3 : (i / wd) * wd = wd * (i / wd) := Nat.mul_comm _ _
        omega
    · have hdm := Nat.div_add_mod i wd
      have h3 : (i / wd) * wd = wd * (i / wd) := Nat.mul_comm _ _
      omega
  obtain ⟨r, c, hr, hc, rfl⟩ := hdec
  rw [create_getNode wd ht β r c hr hc]
  simp only [Node.new]
  have e1 : wd * (ht - 1) + wd = wd * ht := by
    have h2 : ht - 1 + 1 = ht := by omega
    calc wd * (ht - 1) + wd = wd * (ht - 1 + 1) := by ring
      _ = wd * ht := by rw [h2]
  refine ⟨?_, ?_, ?_, ?_⟩
  · have m1 : wd * (if r = 0 then ht - 1 else r - 1) ≤ wd * (ht - 1) :=
      Nat.mul_le_mul_left wd (by split <;> omega)
    omega
  · have m2 : wd * r ≤ wd * (ht - 1) := Nat.mul_le_mul_left wd (by omega)
    have m3 : (if c = 0 then wd - 1 else c - 1) ≤ wd - 1 := by split <;> omega
    omega
  · intro h1
    have hr0 : r = 0 := by omega
    rw [hr0, if_pos rfl, h1]
    omega
  · intro h1
    have hc0 : c = 0 := by omega
    rw [hc0, if_pos rfl, h1]
    omega

theorem create_boundary_safe_witness :
    1 ≤ 1 ∧ 0 < (Field.create 1 1 1).nodes.length ∧
    (((Field.create 1 1 1).getNode 0).neighbor.1 < (Field.create 1 1 1).nodes.length ∧
      ((Field.create 1 1 1).getNode 0).neighbor.2 < (Field.create 1 1 1).nodes.length ∧
      (1 = 1 → ((Field.create 1 1 1).getNode 0).neighbor.1 = 0) ∧
      (1 = 1 → ((Field.create 1 1 1).getNode 0).neighbor.2 = 0)) :=
  ⟨by decide, by decide, create_boundary_safe 1 1 1 (by decide) (by decide) 0 (by decide)⟩

/-! ## C9 -/

/-- C9: `create` is total and fails only by degeneracy of the dimensions: with
`width = 0` or `height = 0` it returns the empty (zero-site) lattice — the
loops never execute, so the `usize` expressions `height-1` / `width-1` are
never evaluated and nothing panics — and for `w, h ≥ 1` it succeeds with
exactly `w*h` sites. -/
theorem create_dimensions_policy (wd ht : ℕ) (β : ℚ) :
    (Field.create wd ht β).nodes.length = wd * ht ∧
    ((wd = 0 ∨ ht = 0) → (Field.create wd ht β).nodes = []) := by
  refine ⟨create_nodes_length wd ht β, fun h0 => ?_⟩
  have hlen := create_nodes_length wd ht β
  have hz : (Field.create wd ht β).nodes.length = 0 := by
    rcases h0 with h | h <;> subst h <;> simp [create_nodes_length]
  exact List.eq_nil_of_length_eq_zero hz

theorem create_dimensions_policy_witness :
    (Field.create 0 3 1).nodes = [] ∧ (Field.create 3 4 1).nodes.length = 3 * 4 :=
  ⟨(create_dimensions_policy 0 3 1).2 (Or.inl rfl), (create_dimensions_policy 3 4 1).1⟩

/-! ## C1 -/

lemma flipNode_length (f : Field) (i : ℕ) : (f.flipNode i).nodes.length = f.nodes.length := by
  simp [Field.flipNode, Field.setNode]

lemma flipNode_beta (f : Field) (i : ℕ) : (f.flipNode i).beta = f.beta := rfl

lemma stepNode_fst (ham : Hamiltonian) (acc : Field × F64Rng) (i : ℕ) :
    (stepNode ham acc i).1 = acc.1.flipNode i ∨ (stepNode ham acc i).1 = acc.1 := by
  simp only [stepNode]
  split
  · left; rfl
  · split
    · left; rfl
    · right; rfl

lemma stepNode_fst_length (ham : Hamiltonian) (acc : Field × F64Rng) (i : ℕ) :
    (stepNode ham acc i).1.nodes.length = acc.1.nodes.length := by
  rcases stepNode_fst ham acc i with h | h <;> rw [h]
  exact flipNode_length acc.1 i

lemma stepNode_fst_beta (ham : Hamiltonian) (acc : Field × F64Rng) (i : ℕ) :
    (stepNode ham acc i).1.beta = acc.1.beta := by
  rcases stepNode_fst ham acc i with h | h <;> rw [h]
  exact flipNode_beta acc.1 i

lemma stepNode_getNode_ne (ham : Hamiltonian) (acc : Field × F64Rng) (i k : ℕ) (hik : i ≠ k) :
    (stepNode ham acc i).1.getNode k = acc.1.getNode k := by
  rcases stepNode_fst ham acc i with h | h <;> rw [h]
  exact flipNode_getNode_ne acc.1 i k hik

lemma foldl_stepNode_length (ham : Hamiltonian) :
    ∀ (l : List ℕ) (acc : Field × F64Rng),
      ((l.foldl (stepNode ham) acc).1.nodes.length) = acc.1.nodes.length := by
  intro l
  induction l with
  | nil => intro acc; rfl
  | cons a t ih =>
    intro acc
    rw [List.foldl_cons, ih, stepNode_fst_length]

lemma foldl_stepNode_beta (ham : Hamiltonian) :
    ∀ (l : List ℕ) (acc : Field × F64Rng),
      ((l.foldl (stepNode ham) acc).1.beta) = acc.1.beta := by
  intro l
  induction l with
  | nil => intro acc; rfl
  | cons a t ih =>
    intro acc
    rw [List.foldl_cons, ih, stepNode_fst_beta]

lemma foldl_range_getNode_stable (ham : Hamiltonian) (i : ℕ) :
    ∀ (n : ℕ) (acc : Field × F64Rng), i < n →
      ((List.range n).foldl (stepNode ham) acc).1.getNode i =
        ((List.range (i + 1)).foldl (stepNode ham) acc).1.getNode i := by
  intro n
  induction n with
  | zero => intro acc h; omega
  | succ n ih =>
    intro acc hin
    rcases Nat.lt_or_ge i n with h | h
    · rw [List.range_succ, List.foldl_append]
      have hone : List.foldl (stepNode ham) ((List.range n).foldl (stepNode ham) acc) [n] =
          stepNode ham ((List.range n).foldl (stepNode ham) acc) n := by
        simp
      rw [hone, stepNode_getNode_ne ham _ n i (by omega)]
      exact ih acc h
    · have hi0 : i = n := by omega
      subst hi0
      rfl

lemma foldl_range_succ_eq (ham : Hamiltonian) (i : ℕ) (acc : Field × F64Rng) :
    (List.range (i + 1)).foldl (stepNode ham) acc =
      stepNode ham ((List.range i).foldl (stepNode ham) acc) i := by
  rw [List.range_succ, List.foldl_append]
  simp

lemma spin_flip_ne (s : Spin) :
    (match s with | Spin.Up => Spin.Down | Spin.Down => Spin.Up) ≠ s := by
  cases s <;> decide

/-- C1: `step` performs one full sweep. Site `i`'s final content is decided at
stage `i` of the left fold over the row-major index list `[0, ..., n-1]`:
writing `before` for the state after the sites `0, ..., i-1` of the same sweep
have been processed (so the decision sees all earlier mutations), the final
spin at `i` differs from `before`'s spin at `i` exactly when
`calc_energy_diff_node i before ≤ 0` (unconditional flips) or the fresh
uniform draw `u` taken at that point satisfies
`u > exp(-1 * beta * delta)`; the neighbor data is never modified, a fresh
draw is consumed exactly when `delta > 0`, `beta` is the unchanged lattice
parameter, the node count is preserved, and the `rng` argument is returned
untouched. -/
theorem step_sweep_characterization (field : Field) (ham : Hamiltonian) (rng : BoolRng)
    (glob : F64Rng) (i : ℕ) (hi : i < field.nodes.length)
    (before : Field × F64Rng)
    (hbefore : before = (List.range i).foldl (stepNode ham) (field, glob)) :
    (step field ham rng glob).2.1 = rng ∧
    (step field ham rng glob).1.nodes.length = field.nodes.length ∧
    before.1.beta = field.beta ∧
    ((step field ham rng glob).1.getNode i).neighbor = (before.1.getNode i).neighbor ∧
    (((step field ham rng glob).1.getNode i).state ≠ (before.1.getNode i).state ↔
      (ham.calc_energy_diff_node i before.1 ≤ 0 ∨
        before.2.vals before.2.pos >
          Real.exp (((-1 : ℚ) * before.1.beta * ham.calc_energy_diff_node i before.1 : ℚ) : ℝ))) ∧
    (ham.calc_energy_diff_node i before.1 ≤ 0 →
      ((List.range (i + 1)).foldl (stepNode ham) (field, glob)).2 = before.2) ∧
    (0 < ham.calc_energy_diff_node i before.1 →
      ((List.range (i + 1)).foldl (stepNode ham) (field, glob)).2 =
        ⟨before.2.vals, before.2.pos + 1⟩) := by
  have hblen : before.1.nodes.length = field.nodes.length := by
    rw [hbefore]; exact foldl_stepNode_length ham _ _
  have hibefore : i < before.1.nodes.length := by omega
  have hstable : (step field ham rng glob).1.getNode i =
      ((List.range (i + 1)).foldl (stepNode ham) (field, glob)).1.getNode i := by
    simp only [step]
    exact foldl_range_getNode_stable ham i field.nodes.length (field, glob) hi
  have hsucc : (List.range (i + 1)).foldl (stepNode ham) (field, glob) =
      stepNode ham before i := by
    rw [foldl_range_succ_eq, ← hbefore]
  have heta : (before.1, before.2) = before := Prod.mk.eta
  refine ⟨rfl, by simp only [step]; exact foldl_stepNode_length ham _ _,
    by rw [hbefore]; exact foldl_stepNode_beta ham _ _, ?_, ?_, ?_, ?_⟩
  · rw [hstable, hsucc]
    rcases stepNode_fst ham before i with h | h <;> rw [h]
    rw [flipNode_getNode_self before.1 i hibefore]
  · rw [hstable, hsucc]
    by_cases hd : ham.calc_energy_diff_node i before.1 ≤ 0
    · have hstep := stepNode_of_nonpos ham before.1 before.2 i hd
      rw [heta] at hstep
      rw [hstep]
      simp only [flipNode_getNode_self before.1 i hibefore]
      exact ⟨fun _ => Or.inl hd, fun _ => spin_flip_ne _⟩
    · have hd' : 0 < ham.calc_energy_diff_node i before.1 := lt_of_not_le hd
      by_cases hu : before.2.vals before.2.pos >
          Real.exp (((-1 : ℚ) * before.1.beta * ham.calc_energy_diff_node i before.1 : ℚ) : ℝ)
      · have hstep := stepNode_of_pos_accept ham before.1 before.2 i hd' hu
        rw [heta] at hstep
        rw [hstep]
        simp only [flipNode_getNode_self before.1 i hibefore]
        exact ⟨fun _ => Or.inr hu, fun _ => spin_flip_ne _⟩
      · have hstep := stepNode_of_pos_reject ham before.1 before.2 i hd' hu
        rw [heta] at hstep
        rw [hstep]
        constructor
        · intro h; exact absurd rfl h
        · rintro (h | h)
          · exact absurd h hd
          · exact absurd h hu
  · intro hd
    have hstep := stepNode_of_nonpos ham before.1 before.2 i hd
    rw [heta] at hstep
    rw [hsucc, hstep]
  · intro hd
    rw [hsucc]
    by_cases hu : before.2.vals before.2.pos >
        Real.exp (((-1 : ℚ) * before.1.beta * ham.calc_energy_diff_node i before.1 : ℚ) : ℝ)
    · have hstep := stepNode_of_pos_accept ham before.1 before.2 i hd hu
      rw [heta] at hstep
      rw [hstep]
    · have hstep := stepNode_of_pos_reject ham before.1 before.2 i hd hu
      rw [heta] at hstep
      rw [hstep]

theorem step_sweep_characterization_witness :
    0 < (Field.create 2 2 1).nodes.length ∧
    ((Field.create 2 2 1, (⟨fun _ => 1/2, 0⟩ : F64Rng)) =
      (List.range 0).foldl (stepNode ⟨1, 0⟩) (Field.create 2 2 1, ⟨fun _ => 1/2, 0⟩)) ∧
    ((step (Field.create 2 2 1) ⟨1, 0⟩ ⟨fun _ => true, 0⟩ ⟨fun _ => 1/2, 0⟩).2.1 =
        ⟨fun _ => true, 0⟩ ∧
      (step (Field.create 2 2 1) ⟨1, 0⟩ ⟨fun _ => true, 0⟩ ⟨fun _ => 1/2, 0⟩).1.nodes.length =
        (Field.create 2 2 1).nodes.length ∧
      (Field.create 2 2 1, (⟨fun _ => 1/2, 0⟩ : F64Rng)).1.beta = (Field.create 2 2 1).beta ∧
      ((step (Field.create 2 2 1) ⟨1, 0⟩ ⟨fun _ => true, 0⟩ ⟨fun _ => 1/2, 0⟩).1.getNode 0).neighbor =
        ((Field.create 2 2 1, (⟨fun _ => 1/2, 0⟩ : F64Rng)).1.getNode 0).neighbor ∧
      (((step (Field.create 2 2 1) ⟨1, 0⟩ ⟨fun _ => true, 0⟩ ⟨fun _ => 1/2, 0⟩).1.getNode 0).state ≠
          ((Field.create 2 2 1, (⟨fun _ => 1/2, 0⟩ : F64Rng)).1.getNode 0).state ↔
        (Hamiltonian.calc_energy_diff_node ⟨1, 0⟩ 0
            (Field.create 2 2 1, (⟨fun _ => 1/2, 0⟩ : F64Rng)).1 ≤ 0 ∨
          (Field.create 2 2 1, (⟨fun _ => 1/2, 0⟩ : F64Rng)).2.vals
              (Field.create 2 2 1, (⟨fun _ => 1/2, 0⟩ : F64Rng)).2.pos >
            Real.exp (((-1 : ℚ) * (Field.create 2 2 1, (⟨fun _ => 1/2, 0⟩ : F64Rng)).1.beta *
              Hamiltonian.calc_energy_diff_node ⟨1, 0⟩ 0
                (Field.create 2 2 1, (⟨fun _ => 1/2, 0⟩ : F64Rng)).1 : ℚ) : ℝ))) ∧
      (Hamiltonian.calc_energy_diff_node ⟨1, 0⟩ 0
          (Field.create 2 2 1, (⟨fun _ => 1/2, 0⟩ : F64Rng)).1 ≤ 0 →
        ((List.range (0 + 1)).foldl (stepNode ⟨1, 0⟩) (Field.create 2 2 1, ⟨fun _ => 1/2, 0⟩)).2 =
          (Field.create 2 2 1, (⟨fun _ => 1/2, 0⟩ : F64Rng)).2) ∧
      (0 < Hamiltonian.calc_energy_diff_node ⟨1, 0⟩ 0
          (Field.create 2 2 1, (⟨fun _ => 1/2, 0⟩ : F64Rng)).1 →
        ((List.range (0 + 1)).foldl (stepNode ⟨1, 0⟩) (Field.create 2 2 1, ⟨fun _ => 1/2, 0⟩)).2 =
          ⟨(Field.create 2 2 1, (⟨fun _ => 1/2, 0⟩ : F64Rng)).2.vals,
            (Field.create 2 2 1, (⟨fun _ => 1/2, 0⟩ : F64Rng)).2.pos + 1⟩)) :=
  ⟨by decide, rfl,
    step_sweep_characterization (Field.create 2 2 1) ⟨1, 0⟩ ⟨fun _ => true, 0⟩
      ⟨fun _ => 1/2, 0⟩ 0 (by decide) (Field.create 2 2 1, ⟨fun _ => 1/2, 0⟩) rfl⟩

/-! ## C2 -/

/-- C2 evidence: the field computed by `step` does not depend on the `rng`
argument at all (first conjunct, which holds definitionally because the body
of `step` never reads `rng`), while it does depend on the thread-local
`rand::random::<f64>()` stream: on the 1x1 lattice with `J = -1`, `H = 0`,
`beta = 1`, site 0 has `delta = 2 > 0`, and changing only the global stream
(first draw `1/2` versus `0`) changes the resulting configuration. So the
acceptance draw is consumed from the global source, not from the generator
passed to `step`, contradicting the claim. -/
theorem step_ignores_rng_argument :
    (∀ (field : Field) (ham : Hamiltonian) (r1 r2 : BoolRng) (glob : F64Rng),
      (step field ham r1 glob).1 = (step field ham r2 glob).1) ∧
    (step (Field.create 1 1 1) ⟨-1, 0⟩ ⟨fun _ => true, 0⟩ ⟨fun _ => 1/2, 0⟩).1 ≠
      (step (Field.create 1 1 1) ⟨-1, 0⟩ ⟨fun _ => true, 0⟩ ⟨fun _ => 0, 0⟩).1 := by
  constructor
  · intro field ham r1 r2 glob
    rfl
  · have hd : Hamiltonian.calc_energy_diff_node ⟨-1, 0⟩ 0 (Field.create 1 1 1) = 2 := by
      have g0 : (Field.create 1 1 1).getNode 0 = Node.new Spin.Up 0 0 := by decide
      simp only [Hamiltonian.calc_energy_diff_node, g0, Node.new]
      norm_num
    have hexp : (((-1 : ℚ) * (Field.create 1 1 1).beta *
        Hamiltonian.calc_energy_diff_node ⟨-1, 0⟩ 0 (Field.create 1 1 1) : ℚ) : ℝ) = -2 := by
      rw [hd]
      have hbeta : (Field.create 1 1 1).beta = 1 := rfl
      rw [hbeta]
      push_cast
      norm_num
    have hfold : ∀ g : F64Rng,
        (step (Field.create 1 1 1) ⟨-1, 0⟩ ⟨fun _ => true, 0⟩ g).1 =
          (stepNode ⟨-1, 0⟩ (Field.create 1 1 1, g) 0).1 := by
      intro g
      have hlen : (Field.create 1 1 1).nodes.length = 1 := by decide
      simp only [step, hlen]
      have hr1 : List.range 1 = [0] := rfl
      rw [hr1]
      rfl
    have hhalf : (step (Field.create 1 1 1) ⟨-1, 0⟩ ⟨fun _ => true, 0⟩ ⟨fun _ => 1/2, 0⟩).1 =
        (Field.create 1 1 1).flipNode 0 := by
      rw [hfold]
      have hu : ((⟨fun _ => 1/2, 0⟩ : F64Rng)).vals ((⟨fun _ => 1/2, 0⟩ : F64Rng)).pos >
          Real.exp (((-1 : ℚ) * (Field.create 1 1 1).beta *
            Hamiltonian.calc_energy_diff_node ⟨-1, 0⟩ 0 (Field.create 1 1 1) : ℚ) : ℝ) := by
        rw [hexp]
        show Real.exp (-2) < 1/2
        have h3 : (3 : ℝ) ≤ Real.exp 2 := by
          have := Real.add_one_le_exp (2 : ℝ)
          linarith
        rw [Real.exp_neg]
        have hinv : (Real.exp 2)⁻¹ ≤ 3⁻¹ := inv_anti₀ (by norm_num) h3
        linarith
      rw [stepNode_of_pos_accept ⟨-1, 0⟩ (Field.create 1 1 1) ⟨fun _ => 1/2, 0⟩ 0
        (by rw [hd]; norm_num) hu]
    have hzero : (step (Field.create 1 1 1) ⟨-1, 0⟩ ⟨fun _ => true, 0⟩ ⟨fun _ => 0, 0⟩).1 =
        Field.create 1 1 1 := by
      rw [hfold]
      have hu : ¬ ((⟨fun _ => 0, 0⟩ : F64Rng)).vals ((⟨fun _ => 0, 0⟩ : F64Rng)).pos >
          Real.exp (((-1 : ℚ) * (Field.create 1 1 1).beta *
            Hamiltonian.calc_energy_diff_node ⟨-1, 0⟩ 0 (Field.create 1 1 1) : ℚ) : ℝ) := by
        rw [hexp]
        exact not_lt.mpr (le_of_lt (Real.exp_pos _))
      rw [stepNode_of_pos_reject ⟨-1, 0⟩ (Field.create 1 1 1) ⟨fun _ => 0, 0⟩ 0
        (by rw [hd]; norm_num) hu]
    rw [hhalf, hzero]
    intro heq
    have hstate := congrArg (fun f : Field => (f.getNode 0).state) heq
    have hdown : (((Field.create 1 1 1).flipNode 0).getNode 0).state = Spin.Down := by decide
    have hup : ((Field.create 1 1 1).getNode 0).state = Spin.Up := by decide
    simp only [hdown, hup] at hstate
    exact absurd hstate (by decide)

end Ising
